import Mathlib

/-!
Shallow embedding of `ebookmaker/writers/__init__.py` (writer base classes):
`BaseWriter.write_with_crlf`, `BaseWriter.validate`, `remove_cr`, and the
`HTMLishWriter` markup-augmentation helpers (`add_class`, `add_meta`,
`add_prop`, `add_internal_css`, `add_body_class`, `add_external_css`),
together with theorems settling the specification claims about them.

Modelling conventions:
- Python `bytes` values are `List Nat` (each entry one byte).
- Python `str` values are Lean `String` / `List Char`.
- The lxml element tree is the inductive `Elem` below: tag, ordered
  attribute list, text (text before the first child), ordered children,
  tail (text after the closing tag).
- In-place mutation of the tree becomes a function returning the new tree.
- The filesystem is not modelled: `write_with_crlf` is modelled as the byte
  string it writes to the file.
- The validator subprocess is modelled as a function from the argument list
  to a `ProcResult` (stdout bytes, stderr bytes, numeric exit status), and
  the process-wide configuration as a function from attribute name to
  `Option String` (`none` = attribute absent, mirroring `hasattr`).
-/

set_option autoImplicit false

namespace Ebookmaker

/-! ### Byte-level model of `BaseWriter.write_with_crlf` -/

/-- Python `bytes_.splitlines()` on a byte string: split on `\n` (10), `\r`
(13) or `\r\n`, the line terminators being removed and a trailing
terminator producing no extra empty line.  `acc` holds the current line in
reverse. -/
def splitlinesAux : List Nat → List Nat → List (List Nat)
  | [], acc => if acc = [] then [] else [acc.reverse]
  | 13 :: 10 :: rest, acc => acc.reverse :: splitlinesAux rest []
  | 13 :: rest, acc => acc.reverse :: splitlinesAux rest []
  | 10 :: rest, acc => acc.reverse :: splitlinesAux rest []
  | c :: rest, acc => splitlinesAux rest (c :: acc)

/-- Python `b'\r\n'.join(lines)`. -/
def joinCrlf : List (List Nat) → List Nat
  | [] => []
  | [l] => l
  | l :: ls => l ++ 13 :: 10 :: joinCrlf ls

/-- `BaseWriter.write_with_crlf`, modelled as the bytes written to the
file: `b'\r\n'.join(bytes_.splitlines()) + b'\r\n'`. -/
def write_with_crlf (bytes_ : List Nat) : List Nat :=
  joinCrlf (splitlinesAux bytes_ []) ++ [13, 10]

/-- A byte that is not part of a line-ending sequence (neither CR nor LF). -/
def notCrlfByte (b : Nat) : Bool := !(b == 13 || b == 10)

/-! ### `remove_cr` -/

/-- ASCII whitespace, the characters matched by `\s` in the regex
`\s*[\r\n]+\s*` on the ASCII strings this code handles. -/
def isPyWs (c : Char) : Bool :=
  c = ' ' || c = '\t' || c = '\n' || c = '\r' || c = '\x0b' || c = '\x0c'

/-- A carriage return or newline, the class `[\r\n]`. -/
def isCrOrLf (c : Char) : Bool := c = '\r' || c = '\n'

/-- The replacement text `&#10;` of `remove_cr`. -/
def nlEntity : List Char := ['&', '#', '1', '0', ';']

/-- Emit a completed whitespace run: the regex `\s*[\r\n]+\s*` matches a
maximal whitespace run exactly when the run contains at least one CR or LF,
and the match then covers the whole run, so such a run is replaced by
`&#10;`; a whitespace run without CR/LF is left verbatim. -/
def flushRun (run : List Char) : List Char :=
  if run.any isCrOrLf then nlEntity else run

/-- Worker for `remove_cr`: `run` is the pending maximal whitespace run
read so far (in order). -/
def removeCrAux : List Char → List Char → List Char
  | run, [] => flushRun run
  | run, c :: rest =>
    if isPyWs c then removeCrAux (run ++ [c]) rest
    else flushRun run ++ c :: removeCrAux [] rest

/-- `remove_cr(content)`: `re.sub(r'\s*[\r\n]+\s*', '&#10;', content)`,
i.e. every maximal whitespace run containing a CR or LF is collapsed to
the single entity `&#10;`. -/
def remove_cr (content : String) : String := ⟨removeCrAux [] content.data⟩

/-! ### Python `str.split()` and `' '.join` -/

/-- Python `s.split()` (no argument): split on whitespace runs, discarding
empty tokens.  `acc` holds the current token in reverse. -/
def pySplitAux : List Char → List Char → List (List Char)
  | [], acc => if acc = [] then [] else [acc.reverse]
  | c :: rest, acc =>
    if isPyWs c then
      (if acc = [] then pySplitAux rest [] else acc.reverse :: pySplitAux rest [])
    else pySplitAux rest (c :: acc)

/-- Python `' '.join(tokens)`. -/
def joinTokens : List (List Char) → List Char
  | [] => []
  | [t] => t
  | t :: ts => t ++ ' ' :: joinTokens ts

/-! ### The lxml element tree -/

/-- An lxml element: tag name, ordered attribute list, text before the
first child, ordered child elements, tail text after the closing tag. -/
inductive Elem : Type where
  | mk (tag : String) (attrs : List (String × String)) (text : String)
      (children : List Elem) (tail : String)

def Elem.tag : Elem → String
  | .mk t _ _ _ _ => t

def Elem.attrs : Elem → List (String × String)
  | .mk _ a _ _ _ => a

def Elem.text : Elem → String
  | .mk _ _ tx _ _ => tx

def Elem.children : Elem → List Elem
  | .mk _ _ _ ch _ => ch

def Elem.tail : Elem → String
  | .mk _ _ _ _ tl => tl

/-- Attribute lookup in an ordered attribute list. -/
def lookupAttr : List (String × String) → String → Option String
  | [], _ => none
  | (k, v) :: rest, key => if k = key then some v else lookupAttr rest key

/-- lxml `elem.set(key, val)`: replace an existing attribute in place, or
append a new one at the end. -/
def setAttrL (key val : String) : List (String × String) → List (String × String)
  | [] => [(key, val)]
  | (k, v) :: rest =>
    if k = key then (key, val) :: rest else (k, v) :: setAttrL key val rest

/-- lxml `elem.get(key, dflt)`. -/
def Elem.getAttr (e : Elem) (key dflt : String) : String :=
  (lookupAttr e.attrs key).getD dflt

/-- lxml `elem.set(key, val)` on an element. -/
def Elem.setAttr : Elem → String → String → Elem
  | .mk t a tx ch tl, key, val => .mk t (setAttrL key val a) tx ch tl

/-- lxml `parent.append(n)`. -/
def appendChild (n : Elem) : Elem → Elem
  | .mk t a tx ch tl => .mk t a tx (ch ++ [n]) tl

/-- lxml `parent.insert(0, n)`. -/
def insertFirst (n : Elem) : Elem → Elem
  | .mk t a tx ch tl => .mk t a tx (n :: ch) tl

mutual

/-- The loop `for e in gg.xpath(xhtml, '//xhtml:tag'): <edit e in place>`:
apply `edit` to every element of the tree whose tag is `tag`. -/
def forEachTag (tag : String) (edit : Elem → Elem) : Elem → Elem
  | .mk t a tx ch tl =>
    if t = tag then edit (.mk t a tx (forEachTagL tag edit ch) tl)
    else .mk t a tx (forEachTagL tag edit ch) tl

def forEachTagL (tag : String) (edit : Elem → Elem) : List Elem → List Elem
  | [] => []
  | c :: cs => forEachTag tag edit c :: forEachTagL tag edit cs

end

mutual

/-- Count the nodes of the tree whose tag and attribute list satisfy `p`. -/
def countMatching (p : String → List (String × String) → Bool) : Elem → Nat
  | .mk t a _ ch _ => (if p t a then 1 else 0) + countMatchingL p ch

def countMatchingL (p : String → List (String × String) → Bool) : List Elem → Nat
  | [] => 0
  | c :: cs => countMatching p c + countMatchingL p cs

end

/-- Number of elements with the given tag in the tree. -/
def countTag (tag : String) : Elem → Nat :=
  countMatching (fun t _ => t == tag)

/-- Number of elements with the given tag in a forest. -/
def countTagL (tag : String) : List Elem → Nat :=
  countMatchingL (fun t _ => t == tag)

/-! ### The `HTMLishWriter` operations -/

/-- The element built by `em.meta(name=name, content=remove_cr(content))`
with `meta.tail = '\n'`. -/
def metaElem (name content : String) : Elem :=
  .mk "meta" [("name", name), ("content", remove_cr content)] "" [] "\n"

/-- The element built by `em.meta(property=prop, content=remove_cr(content))`
with `meta.tail = '\n'`. -/
def propElem (prop content : String) : Elem :=
  .mk "meta" [("property", prop), ("content", remove_cr content)] "" [] "\n"

/-- The element built by `em.link(href=url, rel='stylesheet',
type='text/css')` with `link.tail = '\n'`. -/
def linkElem (url : String) : Elem :=
  .mk "link" [("href", url), ("rel", "stylesheet"), ("type", "text/css")] "" [] "\n"

/-- A character stripped by Python `s.strip(' \n')`. -/
def isSpaceOrNl (c : Char) : Bool := c = ' ' || c = '\n'

/-- Python `s.strip(' \n')`: drop leading and trailing spaces/newlines. -/
def pyStripSpaceNl (s : String) : String :=
  ⟨((s.data.dropWhile isSpaceOrNl).reverse.dropWhile isSpaceOrNl).reverse⟩

/-- The element built by `em.style('\n' + css.strip(' \n') + '\n',
type='text/css')` with `style.tail = '\n'`. -/
def styleElem (css_as_string : String) : Elem :=
  .mk "style" [("type", "text/css")]
    ("\n" ++ pyStripSpaceNl css_as_string ++ "\n") [] "\n"

/-- `HTMLishWriter.add_class`: split the existing `class` attribute
(default `''`) on whitespace, append the new token, rejoin with single
spaces, write back. -/
def add_class (elem : Elem) (class_ : String) : Elem :=
  elem.setAttr "class"
    ⟨joinTokens (pySplitAux (elem.getAttr "class" "").data [] ++ [class_.data])⟩

/-- `HTMLishWriter.add_meta`: append a `meta` tag to every `head`. -/
def add_meta (xhtml : Elem) (name content : String) : Elem :=
  forEachTag "head" (appendChild (metaElem name content)) xhtml

/-- `HTMLishWriter.add_prop`: append a property `meta` tag to every `head`. -/
def add_prop (xhtml : Elem) (prop content : String) : Elem :=
  forEachTag "head" (appendChild (propElem prop content)) xhtml

/-- `HTMLishWriter.add_internal_css`: guarded by
`if css_as_string and xhtml is not None`, insert a `style` element as the
first child of every `head`. -/
def add_internal_css (xhtml : Option Elem) (css_as_string : String) : Option Elem :=
  if css_as_string = "" then xhtml
  else
    match xhtml with
    | some d => some (forEachTag "head" (insertFirst (styleElem css_as_string)) d)
    | none => none

/-- `HTMLishWriter.add_body_class`: guarded by
`if classname and xhtml is not None`, add the class to every `body`. -/
def add_body_class (xhtml : Option Elem) (classname : String) : Option Elem :=
  if classname = "" then xhtml
  else
    match xhtml with
    | some d => some (forEachTag "body" (fun b => add_class b classname) d)
    | none => none

/-- A parsed CSS resource registered with the spider.  The parser object
built by `ParserFactory` from `(mediatype='text/css', url)` and fed
`css_as_string` is abstracted to its url and CSS payload. -/
structure Resource where
  url : String
  content : String
deriving DecidableEq

/-- `HTMLishWriter.add_external_css`: if the CSS text is non-empty, append
one new parsed resource to `spider.parsers`; if the document is not
`None`, append a `link` element to every `head`.  Returns the new parser
list and the new document. -/
def add_external_css (spider : List Resource) (xhtml : Option Elem)
    (css_as_string url : String) : List Resource × Option Elem :=
  (if css_as_string = "" then spider else spider ++ [⟨url, css_as_string⟩],
   match xhtml with
   | some d => some (forEachTag "head" (appendChild (linkElem url)) d)
   | none => none)

/-! ### `BaseWriter.validate` -/

/-- The outcome of `subprocess.run(..., stdout=PIPE, stderr=PIPE)`:
captured stdout bytes, captured stderr bytes, numeric exit status. -/
structure ProcResult where
  stdout : List Nat
  stderr : List Nat
  exitCode : Int
deriving DecidableEq

/-- The fields of the job this layer reads. -/
structure Job where
  outputdir : String
  outputfile : String
deriving DecidableEq

/-- Python `s.split()` returning strings. -/
def pySplitStr (s : String) : List String :=
  (pySplitAux s.data []).map fun l => ⟨l⟩

/-- The argument list `validator.split() + [filename]` passed to
`subprocess.run`; `os.path.join(os.path.abspath(job.outputdir),
job.outputfile)` is modelled as `outputdir ++ "/" ++ outputfile` (the
filesystem is not modelled). -/
def validatorArgs (validatorCmd : String) (job : Job) : List String :=
  pySplitStr validatorCmd ++ [job.outputdir ++ "/" ++ job.outputfile]

/-- `BaseWriter.validate(job)`.  `VALIDATOR` is the class attribute
(`none` = unset, and the empty string is falsy like Python's `if not
self.VALIDATOR`); `config` is `options.config` attribute lookup (`none` =
`hasattr` false); `runProc` is the subprocess.  Returns 1 exactly when the
subprocess wrote non-empty stderr, otherwise 0; the exit status is never
read. -/
def validate (VALIDATOR : Option String) (config : String → Option String)
    (runProc : List String → ProcResult) (job : Job) : Nat :=
  match VALIDATOR with
  | none => 0
  | some v =>
    if v = "" then 0
    else
      match config v with
      | none => 0
      | some validatorCmd =>
        if (runProc (validatorArgs validatorCmd job)).stderr ≠ [] then 1 else 0

/-! ### Representative documents -/

/-- A document whose single `head` has children `ch`. -/
def headDoc (ch : List Elem) : Elem :=
  .mk "html" [] "" [.mk "head" [] "" ch ""] ""

/-- A document with one `head` per entry of `chs`, the i-th head having
children `chs[i]`. -/
def headsDoc (chs : List (List Elem)) : Elem :=
  .mk "html" [] "" (chs.map fun ch => .mk "head" [] "" ch "") ""

/-- Node predicate: a `meta` node with `name="x"` and `content="a&#10;b"`. -/
def metaXPred (t : String) (a : List (String × String)) : Bool :=
  t == "meta" && lookupAttr a "name" == some "x"
    && lookupAttr a "content" == some "a&#10;b"

/-- Node predicate satisfied by every node. -/
def anyNode (_ : String) (_ : List (String × String)) : Bool :=
  true

/-- Node predicate: a stylesheet `link` node pointing at `url`. -/
def linkPred (url t : String) (a : List (String × String)) : Bool :=
  t == "link" && lookupAttr a "href" == some url
    && lookupAttr a "rel" == some "stylesheet"
    && lookupAttr a "type" == some "text/css"

/-! ### Lemmas about `splitlinesAux` and `joinCrlf` -/

theorem splitlinesAux_flatten (bs acc : List Nat) :
    (splitlinesAux bs acc).flatten = acc.reverse ++ bs.filter notCrlfByte := by
  induction bs, acc using splitlinesAux.induct <;>
    simp_all [splitlinesAux, notCrlfByte, List.filter]
  next c rest acc h13 h10 ih =>
    have hb : (!(c == 13) && !(c == 10)) = true := by simp [h13, h10]
    simp [hb]

theorem splitlinesAux_clean (bs acc : List Nat) :
    (∀ b ∈ acc, b ≠ 13 ∧ b ≠ 10) →
    ∀ l ∈ splitlinesAux bs acc, ∀ b ∈ l, b ≠ 13 ∧ b ≠ 10 := by
  induction bs, acc using splitlinesAux.induct with
  | case1 => intro _ l hl; simp [splitlinesAux] at hl
  | case2 acc hne =>
    intro hacc l hl b hb
    simp [splitlinesAux, hne] at hl
    subst hl
    exact hacc b (List.mem_reverse.mp hb)
  | case3 rest acc ih =>
    intro hacc l hl b hb
    simp only [splitlinesAux, List.mem_cons] at hl
    rcases hl with rfl | hl
    · exact hacc b (List.mem_reverse.mp hb)
    · exact ih (by simp) l hl b hb
  | case4 rest acc hno ih =>
    intro hacc l hl b hb
    simp only [splitlinesAux, List.mem_cons] at hl
    rcases hl with rfl | hl
    · exact hacc b (List.mem_reverse.mp hb)
    · exact ih (by simp) l hl b hb
  | case5 rest acc ih =>
    intro hacc l hl b hb
    simp only [splitlinesAux, List.mem_cons] at hl
    rcases hl with rfl | hl
    · exact hacc b (List.mem_reverse.mp hb)
    · exact ih (by simp) l hl b hb
  | case6 c rest acc hno h13 h10 ih =>
    intro hacc l hl b hb
    have heq : splitlinesAux (c :: rest) acc = splitlinesAux rest (c :: acc) := by
      rw [splitlinesAux.eq_def]
      simp [fun h => h13 h, fun h => h10 h]
    rw [heq] at hl
    refine ih ?_ l hl b hb
    intro b' hb'
    rcases List.mem_cons.mp hb' with rfl | hmem
    · exact ⟨fun h => h13 h, fun h => h10 h⟩
    · exact hacc b' hmem

theorem joinCrlf_filter (lines : List (List Nat))
    (h : ∀ l ∈ lines, ∀ b ∈ l, b ≠ 13 ∧ b ≠ 10) :
    (joinCrlf lines).filter notCrlfByte = lines.flatten := by
  induction lines using joinCrlf.induct with
  | case1 => rfl
  | case2 l =>
    rw [joinCrlf]
    simp only [List.flatten, List.append_nil]
    rw [List.filter_eq_self.mpr]
    intro b hb
    have := h l (by simp) b hb
    simp [notCrlfByte, this.1, this.2]
  | case3 l ls hne ih =>
    cases ls with
    | nil => exact absurd rfl (fun he => hne he)
    | cons l2 ls2 =>
      have heq : joinCrlf (l :: l2 :: ls2) = l ++ 13 :: 10 :: joinCrlf (l2 :: ls2) := rfl
      rw [heq, List.filter_append]
      have h1 : List.filter notCrlfByte l = l := by
        rw [List.filter_eq_self.mpr]
        intro b hb
        have := h l (by simp) b hb
        simp [notCrlfByte, this.1, this.2]
      have h2 : List.filter notCrlfByte (13 :: 10 :: joinCrlf (l2 :: ls2)) =
          List.filter notCrlfByte (joinCrlf (l2 :: ls2)) := by
        simp [List.filter, notCrlfByte]
      rw [h1, h2, ih (by intro l' hl'; exact h l' (by simp [hl']))]
      simp [List.flatten]

/-! ### Lemmas about `removeCrAux` -/

theorem removeCrAux_clean (s : List Char) :
    ∀ run : List Char, (∀ c ∈ run, isCrOrLf c = false) →
    (∀ c ∈ s, isCrOrLf c = false) →
    removeCrAux run s = run ++ s := by
  induction s with
  | nil =>
    intro run hrun _
    have : run.any isCrOrLf = false := by
      rw [List.any_eq_false]
      intro c hc
      simp [hrun c hc]
    simp [removeCrAux, flushRun, this]
  | cons c cs ih =>
    intro run hrun hs
    have hc : isCrOrLf c = false := hs c (by simp)
    have hflush : flushRun run = run := by
      have : run.any isCrOrLf = false := by
        rw [List.any_eq_false]
        intro x hx
        simp [hrun x hx]
      simp [flushRun, this]
    by_cases hw : isPyWs c = true
    · rw [removeCrAux, if_pos hw]
      rw [ih (run ++ [c]) ?_ (fun x hx => hs x (by simp [hx]))]
      · simp
      · intro x hx
        rcases List.mem_append.mp hx with hmem | hmem
        · exact hrun x hmem
        · simp at hmem
          subst hmem
          exact hc
    · rw [removeCrAux, if_neg hw, hflush]
      rw [ih [] (by simp) (fun x hx => hs x (by simp [hx]))]
      simp

/-! ### Lemmas about `pySplitAux` and `joinTokens` -/

theorem pySplitAux_clean (s : List Char) :
    ∀ acc : List Char, (∀ c ∈ acc, isPyWs c = false) →
    ∀ t ∈ pySplitAux s acc, t ≠ [] ∧ ∀ c ∈ t, isPyWs c = false := by
  induction s with
  | nil =>
    intro acc hacc t ht
    by_cases h : acc = []
    · simp [pySplitAux, h] at ht
    · simp [pySplitAux, h] at ht
      subst ht
      refine ⟨by simp [h], ?_⟩
      intro c hc
      exact hacc c (List.mem_reverse.mp hc)
  | cons c cs ih =>
    intro acc hacc t ht
    by_cases hw : isPyWs c = true
    · by_cases h : acc = []
      · rw [pySplitAux, if_pos hw, if_pos h] at ht
        exact ih [] (by simp) t ht
      · rw [pySplitAux, if_pos hw, if_neg h] at ht
        rcases List.mem_cons.mp ht with rfl | hmem
        · refine ⟨by simp [h], ?_⟩
          intro x hx
          exact hacc x (List.mem_reverse.mp hx)
        · exact ih [] (by simp) t hmem
    · rw [pySplitAux, if_neg hw] at ht
      refine ih (c :: acc) ?_ t ht
      intro x hx
      rcases List.mem_cons.mp hx with rfl | hmem
      · simpa using hw
      · exact hacc x hmem

theorem pySplitAux_append_clean (t : List Char) :
    ∀ (rest acc : List Char), (∀ c ∈ t, isPyWs c = false) →
    pySplitAux (t ++ rest) acc = pySplitAux rest (t.reverse ++ acc) := by
  induction t with
  | nil => intro rest acc _; simp
  | cons c cs ih =>
    intro rest acc ht
    have hc : isPyWs c = false := ht c (by simp)
    rw [List.cons_append, pySplitAux, if_neg (by simp [hc])]
    rw [ih rest (c :: acc) (fun x hx => ht x (by simp [hx]))]
    simp

theorem pySplitAux_joinTokens (ts : List (List Char))
    (h : ∀ t ∈ ts, t ≠ [] ∧ ∀ c ∈ t, isPyWs c = false) :
    pySplitAux (joinTokens ts) [] = ts := by
  induction ts using joinTokens.induct with
  | case1 => rfl
  | case2 t =>
    obtain ⟨hne, hclean⟩ := h t (by simp)
    rw [joinTokens, show t = t ++ [] by simp, pySplitAux_append_clean t [] [] hclean]
    rw [pySplitAux]
    simp [hne]
  | case3 t ts hts ih =>
    obtain ⟨hne, hclean⟩ := h t (by simp)
    cases ts with
    | nil => exact absurd rfl (fun he => hts he)
    | cons t2 ts2 =>
      have heq : joinTokens (t :: t2 :: ts2) = t ++ ' ' :: joinTokens (t2 :: ts2) := rfl
      rw [heq, pySplitAux_append_clean t (' ' :: joinTokens (t2 :: ts2)) [] hclean]
      rw [pySplitAux, if_pos (by simp [isPyWs]), if_neg (by simp [hne])]
      rw [ih (fun t' ht' => h t' (by simp [ht']))]
      simp

/-! ### Lemmas about attribute lists -/

theorem lookupAttr_setAttrL_self (a : List (String × String)) (key val : String) :
    lookupAttr (setAttrL key val a) key = some val := by
  induction a with
  | nil => simp [setAttrL, lookupAttr]
  | cons kv rest ih =>
    obtain ⟨k, v⟩ := kv
    by_cases h : k = key
    · simp [setAttrL, h, lookupAttr]
    · simp [setAttrL, h, lookupAttr, ih]

/-! ### Lemmas about `countMatching` and `forEachTag` -/

theorem countMatching_mk (p : String → List (String × String) → Bool)
    (t : String) (a : List (String × String)) (tx : String) (ch : List Elem)
    (tl : String) :
    countMatching p (.mk t a tx ch tl) = (if p t a then 1 else 0) + countMatchingL p ch :=
  rfl

theorem countMatchingL_nil (p : String → List (String × String) → Bool) :
    countMatchingL p [] = 0 :=
  rfl

theorem countMatchingL_cons (p : String → List (String × String) → Bool)
    (c : Elem) (cs : List Elem) :
    countMatchingL p (c :: cs) = countMatching p c + countMatchingL p cs :=
  rfl

theorem countTag_mk (tag t : String) (a : List (String × String)) (tx : String)
    (ch : List Elem) (tl : String) :
    countTag tag (.mk t a tx ch tl) = (if t = tag then 1 else 0) + countTagL tag ch := by
  rw [countTag, countMatching_mk, countTagL]
  by_cases h : t = tag <;> simp [h]

theorem countTagL_nil (tag : String) : countTagL tag [] = 0 :=
  rfl

theorem countTagL_cons (tag : String) (c : Elem) (cs : List Elem) :
    countTagL tag (c :: cs) = countTag tag c + countTagL tag cs :=
  rfl

theorem countMatchingL_append (p : String → List (String × String) → Bool)
    (l : List Elem) (n : Elem) :
    countMatchingL p (l ++ [n]) = countMatchingL p l + countMatching p n := by
  induction l with
  | nil => simp [countMatchingL]
  | cons c cs ih =>
    rw [List.cons_append, countMatchingL_cons, countMatchingL_cons, ih]
    omega

theorem countMatching_appendChild (p : String → List (String × String) → Bool)
    (n e : Elem) :
    countMatching p (appendChild n e) = countMatching p e + countMatching p n := by
  cases e with
  | mk t a tx ch tl =>
    rw [appendChild, countMatching_mk, countMatching_mk, countMatchingL_append]
    omega

theorem countMatching_insertFirst (p : String → List (String × String) → Bool)
    (n e : Elem) :
    countMatching p (insertFirst n e) = countMatching p e + countMatching p n := by
  cases e with
  | mk t a tx ch tl =>
    rw [insertFirst, countMatching_mk, countMatching_mk, countMatchingL_cons]
    omega

mutual

theorem forEachTag_noop (tag : String) (edit : Elem → Elem) (d : Elem)
    (h : countTag tag d = 0) : forEachTag tag edit d = d := by
  cases d with
  | mk t a tx ch tl =>
    rw [countTag_mk] at h
    have ht : ¬ t = tag := by
      intro he
      simp [he] at h
    have hch : countTagL tag ch = 0 := by omega
    rw [forEachTag, if_neg ht, forEachTagL_noop tag edit ch hch]

theorem forEachTagL_noop (tag : String) (edit : Elem → Elem) (l : List Elem)
    (h : countTagL tag l = 0) : forEachTagL tag edit l = l := by
  cases l with
  | nil => rfl
  | cons c cs =>
    rw [countTagL_cons] at h
    rw [forEachTagL, forEachTag_noop tag edit c (by omega),
      forEachTagL_noop tag edit cs (by omega)]

end

mutual

theorem countMatching_forEachTag (p : String → List (String × String) → Bool)
    (tag : String) (edit : Elem → Elem) (k : Nat)
    (hedit : ∀ e, countMatching p (edit e) = countMatching p e + k) (d : Elem) :
    countMatching p (forEachTag tag edit d)
      = countMatching p d + countTag tag d * k := by
  cases d with
  | mk t a tx ch tl =>
    rw [forEachTag, countTag_mk]
    by_cases ht : t = tag
    · rw [if_pos ht, hedit, countMatching_mk, countMatching_mk,
        countMatchingL_forEachTagL p tag edit k hedit ch, if_pos ht]
      ring
    · rw [if_neg ht, countMatching_mk, countMatching_mk,
        countMatchingL_forEachTagL p tag edit k hedit ch, if_neg ht]
      ring

theorem countMatchingL_forEachTagL (p : String → List (String × String) → Bool)
    (tag : String) (edit : Elem → Elem) (k : Nat)
    (hedit : ∀ e, countMatching p (edit e) = countMatching p e + k) (l : List Elem) :
    countMatchingL p (forEachTagL tag edit l)
      = countMatchingL p l + countTagL tag l * k := by
  cases l with
  | nil => simp [forEachTagL, countMatchingL_nil, countTagL_nil]
  | cons c cs =>
    rw [forEachTagL, countMatchingL_cons, countMatchingL_cons, countTagL_cons,
      countMatching_forEachTag p tag edit k hedit c,
      countMatchingL_forEachTagL p tag edit k hedit cs]
    ring

end

theorem forEachTagL_heads (edit : Elem → Elem) (chs : List (List Elem))
    (hch : ∀ ch ∈ chs, countTagL "head" ch = 0) :
    forEachTagL "head" edit (chs.map fun ch => Elem.mk "head" [] "" ch "")
      = chs.map fun ch => edit (Elem.mk "head" [] "" ch "") := by
  induction chs with
  | nil => rfl
  | cons ch chs ih =>
    rw [List.map_cons, forEachTagL, forEachTag, if_pos rfl,
      forEachTagL_noop "head" edit ch (hch ch (by simp)),
      ih (fun c hc => hch c (by simp [hc])), List.map_cons]

/-! ### Claim theorems -/

/-- C2: for every byte string `C`, the bytes written by `write_with_crlf`,
with all CR and LF bytes removed, equal `C` with all CR and LF bytes
removed; the output is the CRLF-join of CR/LF-free lines followed by a
final CRLF, so every retained line boundary is exactly the two bytes CR LF
and the output always ends in CR LF, even when `C` does not end in a line
ending. -/
theorem write_with_crlf_spec (C : List Nat) :
    (write_with_crlf C).filter notCrlfByte = C.filter notCrlfByte
    ∧ ∃ lines, (∀ l ∈ lines, ∀ b ∈ l, b ≠ 13 ∧ b ≠ 10)
        ∧ write_with_crlf C = joinCrlf lines ++ [13, 10] := by
  have hclean := splitlinesAux_clean C [] (by simp)
  constructor
  · show (joinCrlf (splitlinesAux C []) ++ [13, 10]).filter notCrlfByte = _
    rw [List.filter_append, joinCrlf_filter _ hclean, splitlinesAux_flatten]
    simp [notCrlfByte]
  · exact ⟨splitlinesAux C [], hclean, rfl⟩

/-- C9: `remove_cr` is the identity on every string containing no carriage
return and no newline, so `add_meta` stores such content strings unchanged
in the `content` attribute of the new meta node. -/
theorem remove_cr_identity (s name : String)
    (h : ∀ c ∈ s.data, isCrOrLf c = false) :
    remove_cr s = s
    ∧ lookupAttr (metaElem name s).attrs "content" = some s := by
  have hid : removeCrAux [] s.data = s.data := by
    rw [removeCrAux_clean s.data [] (by simp) h]
    simp
  have hrc : remove_cr s = s := by
    show String.mk (removeCrAux [] s.data) = s
    rw [hid]
  refine ⟨hrc, ?_⟩
  show lookupAttr [("name", name), ("content", remove_cr s)] "content" = some s
  rw [lookupAttr, if_neg (by decide), lookupAttr, if_pos rfl, hrc]

/-- Witness for C9 at the concrete CR/LF-free string `"a  b\t c"`. -/
theorem remove_cr_identity_witness :
    (∀ c ∈ ("a  b\t c" : String).data, isCrOrLf c = false)
    ∧ remove_cr "a  b\t c" = "a  b\t c"
    ∧ lookupAttr (metaElem "x" "a  b\t c").attrs "content" = some "a  b\t c" := by
  refine ⟨by decide, ?_, ?_⟩
  · exact (remove_cr_identity "a  b\t c" "x" (by decide)).1
  · exact (remove_cr_identity "a  b\t c" "x" (by decide)).2

/-- C1: `validate` returns 0 when no validator is configured (`VALIDATOR`
unset) and when the named validator attribute is absent from the
configuration; when the validator subprocess runs, it returns 1 iff the
subprocess wrote non-empty stderr and 0 iff stderr is empty; and the
result depends only on the subprocess's stderr, never on its numeric exit
status or stdout. -/
theorem validate_spec :
    (∀ (config : String → Option String) (runProc : List String → ProcResult)
        (job : Job), validate none config runProc job = 0)
    ∧ (∀ (v : String) (config : String → Option String)
        (runProc : List String → ProcResult) (job : Job),
        config v = none → validate (some v) config runProc job = 0)
    ∧ (∀ (v : String) (config : String → Option String)
        (runProc : List String → ProcResult) (job : Job) (cmd : String),
        v ≠ "" → config v = some cmd →
        ((validate (some v) config runProc job = 1
            ↔ (runProc (validatorArgs cmd job)).stderr ≠ [])
          ∧ (validate (some v) config runProc job = 0
            ↔ (runProc (validatorArgs cmd job)).stderr = [])))
    ∧ (∀ (V : Option String) (config : String → Option String)
        (r1 r2 : List String → ProcResult) (job : Job),
        (∀ args, (r1 args).stderr = (r2 args).stderr) →
        validate V config r1 job = validate V config r2 job) := by
  refine ⟨fun _ _ _ => rfl, ?_, ?_, ?_⟩
  · intro v config runProc job hc
    rw [validate]
    by_cases hv : v = ""
    · rw [if_pos hv]
    · rw [if_neg hv, hc]
  · intro v config runProc job cmd hv hc
    have hval : validate (some v) config runProc job
        = if (runProc (validatorArgs cmd job)).stderr ≠ [] then 1 else 0 := by
      rw [validate, if_neg hv, hc]
    rw [hval]
    by_cases hs : (runProc (validatorArgs cmd job)).stderr = []
    · rw [if_neg (not_not_intro hs)]
      simp [hs]
    · rw [if_pos hs]
      simp [hs]
  · intro V config r1 r2 job hr
    cases V with
    | none => rfl
    | some v =>
      rw [validate, validate]
      by_cases hv : v = ""
      · rw [if_pos hv, if_pos hv]
      · rw [if_neg hv, if_neg hv]
        cases hcv : config v with
        | none => rfl
        | some cmd =>
          show (if (r1 (validatorArgs cmd job)).stderr ≠ [] then 1 else 0)
            = (if (r2 (validatorArgs cmd job)).stderr ≠ [] then 1 else 0)
          rw [hr (validatorArgs cmd job)]

/-- Witness for C1: a configured validator whose subprocess exits with
status 0 but writes stderr makes `validate` return 1, and an unset
`VALIDATOR` makes it return 0. -/
theorem validate_spec_witness :
    validate (some "V") (fun _ => some "prog -q") (fun _ => ⟨[], [101], 0⟩)
      ⟨"out", "book.epub"⟩ = 1
    ∧ validate none (fun _ => some "prog -q") (fun _ => ⟨[], [101], 0⟩)
      ⟨"out", "book.epub"⟩ = 0 := by
  constructor
  · exact (validate_spec.2.2.1 "V" (fun _ => some "prog -q")
      (fun _ => ⟨[], [101], 0⟩) ⟨"out", "book.epub"⟩ "prog -q"
      (by decide) rfl).1.mpr (by simp)
  · exact validate_spec.1 (fun _ => some "prog -q")
      (fun _ => ⟨[], [101], 0⟩) ⟨"out", "book.epub"⟩

/-- C3: on a document with exactly one `head` element,
`add_meta(doc, "x", "a\nb")` adds exactly one node in total, and exactly
one more `meta` node with `name="x"` and `content="a&#10;b"` exists
afterwards; `remove_cr` collapses the embedded newline to `&#10;`. -/
theorem add_meta_one_head (d : Elem) (h : countTag "head" d = 1) :
    countMatching metaXPred (add_meta d "x" "a\nb")
      = countMatching metaXPred d + 1
    ∧ countMatching anyNode (add_meta d "x" "a\nb")
      = countMatching anyNode d + 1
    ∧ remove_cr "a\nb" = "a&#10;b" := by
  have hm : countMatching metaXPred (metaElem "x" "a\nb") = 1 := by decide
  have ha : countMatching anyNode (metaElem "x" "a\nb") = 1 := by decide
  refine ⟨?_, ?_, by decide⟩
  · rw [add_meta, countMatching_forEachTag metaXPred "head"
      (appendChild (metaElem "x" "a\nb")) 1
      (fun e => by rw [countMatching_appendChild, hm]) d, h]
  · rw [add_meta, countMatching_forEachTag anyNode "head"
      (appendChild (metaElem "x" "a\nb")) 1
      (fun e => by rw [countMatching_appendChild, ha]) d, h]

/-- Witness for C3 at the concrete one-head document. -/
theorem add_meta_one_head_witness :
    countTag "head" (headDoc []) = 1
    ∧ countMatching metaXPred (add_meta (headDoc []) "x" "a\nb")
      = countMatching metaXPred (headDoc []) + 1 := by
  exact ⟨by decide, (add_meta_one_head (headDoc []) (by decide)).1⟩

/-- C7: on a document with zero `head` elements and zero `body` elements,
every augmentation operation completes and leaves the document entirely
unchanged. -/
theorem zero_match_noop (d : Elem)
    (name content prop classname css url : String) (spider : List Resource)
    (hh : countTag "head" d = 0) (hb : countTag "body" d = 0) :
    add_meta d name content = d
    ∧ add_prop d prop content = d
    ∧ add_internal_css (some d) css = some d
    ∧ add_body_class (some d) classname = some d
    ∧ (add_external_css spider (some d) css url).2 = some d := by
  refine ⟨forEachTag_noop _ _ d hh, forEachTag_noop _ _ d hh, ?_, ?_, ?_⟩
  · rw [add_internal_css]
    by_cases hc : css = ""
    · rw [if_pos hc]
    · rw [if_neg hc, forEachTag_noop _ _ d hh]
  · rw [add_body_class]
    by_cases hc : classname = ""
    · rw [if_pos hc]
    · rw [if_neg hc, forEachTag_noop _ _ d hb]
  · show some (forEachTag "head" (appendChild (linkElem url)) d) = some d
    rw [forEachTag_noop _ _ d hh]

/-- Witness for C7 at a concrete head-less, body-less document. -/
theorem zero_match_noop_witness :
    countTag "head" (Elem.mk "div" [] "t" [] "") = 0
    ∧ add_meta (Elem.mk "div" [] "t" [] "") "n" "c" = Elem.mk "div" [] "t" [] ""
    ∧ add_body_class (some (Elem.mk "div" [] "t" [] "")) "cl"
      = some (Elem.mk "div" [] "t" [] "") := by
  have h := zero_match_noop (Elem.mk "div" [] "t" [] "") "n" "c" "p" "cl" "css" "u"
    [] (by decide) (by decide)
  exact ⟨by decide, h.1, h.2.2.2.1⟩

/-- C5: with non-empty CSS and a non-empty document, `add_internal_css`
inserts a `style` element of type `text/css` at index 0 of every `head`,
so each head's prior children keep their relative order right after the
new style node; the inserted text is the CSS stripped of leading/trailing
spaces and newlines and wrapped in single newlines; with empty CSS or a
`None` document, nothing changes. -/
theorem add_internal_css_first (chs : List (List Elem)) (css : String)
    (hch : ∀ ch ∈ chs, countTagL "head" ch = 0) (hcss : css ≠ "") :
    add_internal_css (some (headsDoc chs)) css
      = some (headsDoc (chs.map fun ch => styleElem css :: ch))
    ∧ add_internal_css none css = none
    ∧ add_internal_css (some (headsDoc chs)) "" = some (headsDoc chs)
    ∧ (styleElem css).tag = "style"
    ∧ lookupAttr (styleElem css).attrs "type" = some "text/css"
    ∧ (styleElem css).text = "\n" ++ pyStripSpaceNl css ++ "\n" := by
  refine ⟨?_, by rw [add_internal_css, if_neg hcss],
    by rw [add_internal_css, if_pos rfl], rfl, rfl, rfl⟩
  rw [add_internal_css, if_neg hcss]
  show some (forEachTag "head" (insertFirst (styleElem css)) (headsDoc chs)) = _
  rw [headsDoc, forEachTag, if_neg (by decide),
    forEachTagL_heads (insertFirst (styleElem css)) chs hch, headsDoc]
  simp [insertFirst, List.map_map, Function.comp]

/-- Witness for C5 at a one-head document with one prior child. -/
theorem add_internal_css_first_witness :
    add_internal_css (some (headsDoc [[metaElem "g" "v"]])) "p"
      = some (headsDoc [[styleElem "p", metaElem "g" "v"]]) := by
  exact (add_internal_css_first [[metaElem "g" "v"]] "p"
    (by decide) (by decide)).1

/-- C6: `add_class` appends the class token to the existing `class`
attribute (empty when absent), joined with single spaces: two successive
calls with `"foo"` then `"bar"` on an element without a class attribute
yield `class="foo bar"`, and no de-duplication happens, so adding `"foo"`
twice yields `"foo foo"`. -/
theorem add_class_append (t : String) (a : List (String × String))
    (tx tl : String) (ch : List Elem)
    (h : lookupAttr a "class" = none) :
    (add_class (add_class (.mk t a tx ch tl) "foo") "bar").getAttr "class" ""
      = "foo bar"
    ∧ (add_class (add_class (.mk t a tx ch tl) "foo") "foo").getAttr "class" ""
      = "foo foo" := by
  have hget : (Elem.mk t a tx ch tl).getAttr "class" "" = "" := by
    show (lookupAttr a "class").getD "" = ""
    rw [h]
    rfl
  have h1 : add_class (.mk t a tx ch tl) "foo"
      = .mk t (setAttrL "class" "foo" a) tx ch tl := by
    rw [add_class, hget]
    rfl
  have hget2 : (Elem.mk t (setAttrL "class" "foo" a) tx ch tl).getAttr "class" ""
      = "foo" := by
    show (lookupAttr (setAttrL "class" "foo" a) "class").getD "" = "foo"
    rw [lookupAttr_setAttrL_self]
    rfl
  constructor
  · rw [h1, add_class, hget2]
    show (lookupAttr (setAttrL "class" _ (setAttrL "class" "foo" a)) "class").getD ""
      = "foo bar"
    rw [lookupAttr_setAttrL_self]
    rfl
  · rw [h1, add_class, hget2]
    show (lookupAttr (setAttrL "class" _ (setAttrL "class" "foo" a)) "class").getD ""
      = "foo foo"
    rw [lookupAttr_setAttrL_self]
    rfl

/-- Witness for C6 at a concrete element without `class` attribute. -/
theorem add_class_append_witness :
    (add_class (add_class (.mk "body" [("id", "i")] "" [] "") "foo") "bar").getAttr
      "class" "" = "foo bar" := by
  exact (add_class_append "body" [("id", "i")] "" "" [] (by decide)).1

/-- C10: `add_class` rewrites the whole `class` attribute by splitting on
arbitrary whitespace and rejoining with single spaces, so the token list
of the new value is exactly the old token list extended by the new class,
and pre-existing runs of multiple or non-space whitespace separators are
normalized to single spaces, as on `"a  b"` and on a tab-separated
value. -/
theorem add_class_normalizes (t : String) (a : List (String × String))
    (tx tl : String) (ch : List Elem) (v class_ : String)
    (hv : lookupAttr a "class" = some v)
    (hc1 : class_.data ≠ [])
    (hc2 : ∀ c ∈ class_.data, isPyWs c = false) :
    pySplitAux ((add_class (.mk t a tx ch tl) class_).getAttr "class" "").data []
      = pySplitAux v.data [] ++ [class_.data]
    ∧ (add_class (.mk "p" [("class", "a  b")] "" [] "") "c").getAttr "class" ""
      = "a b c"
    ∧ (add_class (.mk "p" [("class", "a\tb")] "" [] "") "c").getAttr "class" ""
      = "a b c" := by
  refine ⟨?_, by decide, by decide⟩
  have hget : (Elem.mk t a tx ch tl).getAttr "class" "" = v := by
    show (lookupAttr a "class").getD "" = v
    rw [hv]
    rfl
  have hres : (add_class (.mk t a tx ch tl) class_).getAttr "class" ""
      = ⟨joinTokens (pySplitAux v.data [] ++ [class_.data])⟩ := by
    rw [add_class, hget]
    show (lookupAttr (setAttrL "class" _ a) "class").getD "" = _
    rw [lookupAttr_setAttrL_self]
    rfl
  rw [hres]
  exact pySplitAux_joinTokens (pySplitAux v.data [] ++ [class_.data]) (by
    intro tok htok
    rcases List.mem_append.mp htok with hmem | hmem
    · exact pySplitAux_clean v.data [] (by simp) tok hmem
    · simp at hmem
      subst hmem
      exact ⟨hc1, hc2⟩)

/-- Witness for C10 at a concrete element with a double-space separated
class value. -/
theorem add_class_normalizes_witness :
    lookupAttr [("class", "x  y")] "class" = some "x  y"
    ∧ pySplitAux ((add_class (.mk "p" [("class", "x  y")] "" [] "") "z").getAttr
        "class" "").data []
      = pySplitAux ("x  y" : String).data [] ++ [("z" : String).data] := by
  exact ⟨by decide, (add_class_normalizes "p" [("class", "x  y")] "" "" [] "x  y" "z"
    (by decide) (by decide) (by decide)).1⟩

/-- C4: `add_external_css` registers exactly one new resource with the
spider whenever the CSS text is non-empty (independently of the document),
registers none when the CSS text is empty, and appends exactly one
stylesheet `link` element per `head` whenever the document is non-empty
(independently of the CSS text); a `None` document stays `None`. -/
theorem add_external_css_spec (spider : List Resource) (x : Option Elem)
    (d : Elem) (css url : String) :
    (css ≠ "" → (add_external_css spider x css url).1 = spider ++ [⟨url, css⟩])
    ∧ (add_external_css spider x "" url).1 = spider
    ∧ (add_external_css spider none css url).2 = none
    ∧ ∃ d', (add_external_css spider (some d) css url).2 = some d'
        ∧ countMatching (linkPred url) d'
            = countMatching (linkPred url) d + countTag "head" d
        ∧ countMatching anyNode d' = countMatching anyNode d + countTag "head" d := by
  have hlink : countMatching (linkPred url) (linkElem url) = 1 := by
    rw [linkElem, countMatching_mk, countMatchingL_nil]
    have : linkPred url "link"
        [("href", url), ("rel", "stylesheet"), ("type", "text/css")] = true := by
      rw [linkPred]
      rw [lookupAttr, if_pos rfl]
      rw [lookupAttr, if_neg (by decide), lookupAttr, if_pos rfl]
      rw [lookupAttr, if_neg (by decide), lookupAttr, if_neg (by decide),
        lookupAttr, if_pos rfl]
      simp
    rw [if_pos this]
  have hany : countMatching anyNode (linkElem url) = 1 := by
    rw [linkElem, countMatching_mk, countMatchingL_nil]
    simp [anyNode]
  refine ⟨?_, ?_, rfl, ?_⟩
  · intro hcss
    show (if css = "" then spider else spider ++ [⟨url, css⟩]) = _
    rw [if_neg hcss]
  · show (if ("" : String) = "" then spider else spider ++ [Resource.mk url ""])
      = spider
    rw [if_pos rfl]
  · refine ⟨forEachTag "head" (appendChild (linkElem url)) d, rfl, ?_, ?_⟩
    · rw [countMatching_forEachTag (linkPred url) "head"
        (appendChild (linkElem url)) 1
        (fun e => by rw [countMatching_appendChild, hlink]) d]
      ring
    · rw [countMatching_forEachTag anyNode "head"
        (appendChild (linkElem url)) 1
        (fun e => by rw [countMatching_appendChild, hany]) d]
      ring

/-- Witness for C4 at a concrete document and non-empty CSS. -/
theorem add_external_css_spec_witness :
    (add_external_css [] (some (headDoc [])) "p" "u").1 = [⟨"u", "p"⟩]
    ∧ (add_external_css [] (some (headDoc [])) "" "u").1 = [] := by
  have h := add_external_css_spec [] (some (headDoc [])) (headDoc []) "p" "u"
  exact ⟨h.1 (by decide), h.2.1⟩

/-- C8: every node appended or inserted into a `head` by the augmentation
operations — the meta node of `add_meta`/`add_prop`, the style node of
`add_internal_css`, the link node of `add_external_css` — carries exactly
the single newline `"\n"` as its tail. -/
theorem appended_tail_newline (name content prop css url : String)
    (hcss : css ≠ "") :
    (metaElem name content).tail = "\n"
    ∧ (propElem prop content).tail = "\n"
    ∧ (styleElem css).tail = "\n"
    ∧ (linkElem url).tail = "\n"
    ∧ add_meta (headDoc []) name content = headDoc [metaElem name content]
    ∧ add_prop (headDoc []) prop content = headDoc [propElem prop content]
    ∧ add_internal_css (some (headDoc [])) css = some (headDoc [styleElem css])
    ∧ (add_external_css [] (some (headDoc [])) css url).2
      = some (headDoc [linkElem url]) := by
  refine ⟨rfl, rfl, rfl, rfl, rfl, rfl, ?_, rfl⟩
  rw [add_internal_css, if_neg hcss]
  rfl

/-- Witness for C8 at concrete strings. -/
theorem appended_tail_newline_witness :
    (metaElem "n" "c").tail = "\n"
    ∧ add_internal_css (some (headDoc [])) "p" = some (headDoc [styleElem "p"]) := by
  have h := appended_tail_newline "n" "c" "pr" "p" "u" (by decide)
  exact ⟨h.1, h.2.2.2.2.2.2.1⟩

end Ebookmaker
